import Mathlib

/-!
Verification of the transcript-assembly and slide-normalization core of the
MathPilot repository.

The Python sources embedded here:
* `src/backend/app/services/audio/stt_processor.py` — `STTProcessor.transcribe`
  (result-parsing part, lines 91–128): builds a `TranscriptResult` from the
  recognition response.
* `src/backend/app/services/vision/ocr_processor.py` — `OCRProcessor`
  (`_clean_hallucinations`, `_extract_latex`, `process_slide`,
  `process_slides`).

Strings are modelled as `List Char`; numeric time values as `ℚ` (Python floats
carrying millisecond offsets, divided by 1000.0).
-/

/-- Whitespace predicate of Python `str.strip()` (ASCII part). -/
def isWS (c : Char) : Bool :=
  c = ' ' || c = '\t' || c = '\n' || c = '\r' || c = '\x0b' || c = '\x0c'

/-- Python `s.strip()`: remove trailing whitespace (via reverse), then leading. -/
def pStrip (s : List Char) : List Char :=
  ((s.reverse.dropWhile isWS).reverse).dropWhile isWS

namespace STTProcessor

/-- A word with millisecond offsets, as consumed from the Riva response
(`alt.words[i].start_time`, `.end_time`). -/
structure Word where
  start_time : ℚ
  end_time : ℚ
  deriving DecidableEq

/-- One recognition alternative (`result.alternatives[i]`). -/
structure Alternative where
  transcript : List Char
  words : List Word
  deriving DecidableEq

/-- One recognition result (`response.results[i]`). -/
structure RecoResult where
  alternatives : List Alternative
  deriving DecidableEq

/-- `TranscriptSegment` dataclass (stt_processor.py lines 16–20). -/
structure TranscriptSegment where
  start : ℚ
  «end» : ℚ
  text : List Char
  deriving DecidableEq

/-- `TranscriptResult` dataclass (stt_processor.py lines 22–27). -/
structure TranscriptResult where
  full_text : List Char
  segments : List TranscriptSegment
  language : List Char
  duration_sec : ℚ
  deriving DecidableEq

/-- Segment built for one contributing alternative (lines 106–114): with word
timestamps, `(words[0].start_time/1000, words[-1].end_time/1000, chunk.strip())`;
without, the sentinel `(0.0, 999999.0, chunk.strip())`. -/
def mkSeg (alt : Alternative) : TranscriptSegment :=
  match alt.words with
  | [] => ⟨0, 999999, pStrip alt.transcript⟩
  | w :: ws => ⟨w.start_time / 1000, (ws.getLastD w).end_time / 1000, pStrip alt.transcript⟩

/-- Body of the `for result in response.results` loop (lines 98–114), acting on
the accumulator `(full_text, segments)`: results with no alternatives are
skipped; otherwise the first alternative's transcript plus a space is appended
to `full_text` and one segment is appended to `segments`. -/
def step (acc : List Char × List TranscriptSegment) (r : RecoResult) :
    List Char × List TranscriptSegment :=
  match r.alternatives with
  | [] => acc
  | alt :: _ => (acc.1 ++ alt.transcript ++ [' '], acc.2 ++ [mkSeg alt])

/-- Result-parsing part of `STTProcessor.transcribe` (lines 91–128), from the
parsed response's result list to the returned `TranscriptResult`. -/
def transcribe (results : List RecoResult) : TranscriptResult :=
  if results = [] then ⟨[], [], "ko-KR".data, 0⟩
  else
    let acc := results.foldl step ([], [])
    let segments :=
      if acc.2 = [] ∧ pStrip acc.1 ≠ [] then [⟨0, 999999, pStrip acc.1⟩] else acc.2
    let duration : ℚ := match segments.getLast? with | some s => s.«end» | none => 0
    ⟨pStrip acc.1, segments, "ko-KR".data, duration⟩

/-- The selected (first) alternatives of the contributing results, in input
order; results with no alternatives contribute nothing. -/
def contribAlts (results : List RecoResult) : List Alternative :=
  results.filterMap (fun r => r.alternatives.head?)

/-- The running `full_text` accumulator produced by the loop. -/
def textAcc (results : List RecoResult) : List Char :=
  ((contribAlts results).map (fun a => a.transcript ++ [' '])).flatten

theorem foldl_step_eq (rs : List RecoResult) :
    ∀ a b, rs.foldl step (a, b) = (a ++ textAcc rs, b ++ (contribAlts rs).map mkSeg) := by
  induction rs with
  | nil => intro a b; simp [textAcc, contribAlts]
  | cons r rs ih =>
    intro a b
    cases h : r.alternatives with
    | nil =>
      simp only [List.foldl_cons, step, h]
      rw [ih]
      simp [textAcc, contribAlts, List.filterMap_cons, h]
    | cons alt rest =>
      simp only [List.foldl_cons, step, h]
      rw [ih]
      simp [textAcc, contribAlts, List.filterMap_cons, h, List.append_assoc]

theorem textAcc_eq_nil (rs : List RecoResult) (h : contribAlts rs = []) : textAcc rs = [] := by
  simp [textAcc, h]

theorem transcribe_segments (rs : List RecoResult) :
    (transcribe rs).segments = (contribAlts rs).map mkSeg := by
  by_cases hrs : rs = []
  · subst hrs; simp [transcribe, contribAlts]
  · simp only [transcribe, if_neg hrs, foldl_step_eq, List.nil_append]
    by_cases hc : (contribAlts rs).map mkSeg = []
    · have hnil : contribAlts rs = [] := List.map_eq_nil_iff.mp hc
      rw [textAcc_eq_nil rs hnil]
      simp [pStrip, hc]
    · simp [hc]

theorem transcribe_full_text (rs : List RecoResult) :
    (transcribe rs).full_text = pStrip (textAcc rs) := by
  by_cases hrs : rs = []
  · subst hrs; simp [transcribe, textAcc, contribAlts, pStrip]
  · simp [transcribe, if_neg hrs, foldl_step_eq]

end STTProcessor

theorem pStrip_append_space (s : List Char) : pStrip (s ++ [' ']) = pStrip s := by
  simp [pStrip, List.dropWhile_cons, isWS]

theorem flatten_map_space_eq_intercalate (cs : List (List Char)) (h : cs ≠ []) :
    (cs.map (fun c => c ++ [' '])).flatten = List.intercalate [' '] cs ++ [' '] := by
  induction cs with
  | nil => exact absurd rfl h
  | cons c cs ih =>
    cases cs with
    | nil => simp [List.intercalate]
    | cons d ds =>
      have : List.intercalate [' '] (c :: d :: ds) =
          c ++ [' '] ++ List.intercalate [' '] (d :: ds) := by
        simp [List.intercalate, List.intersperse]
      rw [List.map_cons, List.flatten_cons, ih (by simp), this]
      simp [List.append_assoc]

namespace STTProcessor

/-- C2: for every input sequence of recognition results, `full_text` equals
the trimmed, single-space-joined concatenation of the selected alternatives'
transcript chunks in input order; results with no alternatives contribute
nothing (`contribAlts` keeps exactly the first alternative of each result
that has one). -/
theorem transcribe_full_text_is_trimmed_join (rs : List RecoResult) :
    (transcribe rs).full_text =
      pStrip (List.intercalate [' '] ((contribAlts rs).map (fun a => a.transcript))) := by
  rw [transcribe_full_text]
  have hta : textAcc rs =
      (((contribAlts rs).map (fun a => a.transcript)).map (fun c => c ++ [' '])).flatten := by
    rw [List.map_map]; rfl
  rw [hta]
  cases hc : (contribAlts rs).map (fun a => a.transcript) with
  | nil => simp [List.intercalate]
  | cons c cs =>
    rw [flatten_map_space_eq_intercalate _ (by simp), pStrip_append_space]

/-- First word's start time of an alternative (0 if it has no words; only used
under a `words ≠ []` hypothesis). -/
def wStart (a : Alternative) : ℚ :=
  match a.words with
  | [] => 0
  | w :: _ => w.start_time

/-- Last word's end time of an alternative (0 if it has no words; only used
under a `words ≠ []` hypothesis). -/
def wEnd (a : Alternative) : ℚ :=
  match a.words with
  | [] => 0
  | w :: ws => (ws.getLastD w).end_time

theorem mkSeg_of_words_ne_nil (a : Alternative) (h : a.words ≠ []) :
    mkSeg a = ⟨wStart a / 1000, wEnd a / 1000, pStrip a.transcript⟩ := by
  cases hw : a.words with
  | nil => exact absurd hw h
  | cons w ws => simp [mkSeg, wStart, wEnd, hw]

/-- C1 counterexample: a single recognition result whose selected alternative
carries a word timestamp pair with `end_time < start_time` makes `transcribe`
emit a segment with `start > end`, refuting the claim that for every input
with word timestamps each emitted segment satisfies `start ≤ end`. -/
theorem segment_start_le_end_fails_on_reversed_timestamps :
    (∀ a ∈ contribAlts [⟨[⟨"x".data, [⟨2000, 1000⟩]⟩]⟩], a.words ≠ []) ∧
      ¬ ∀ s ∈ (transcribe [⟨[⟨"x".data, [⟨2000, 1000⟩]⟩]⟩]).segments,
          s.start ≤ s.«end» := by
  refine ⟨by decide, fun h => ?_⟩
  have hseg : (transcribe [⟨[⟨"x".data, [⟨2000, 1000⟩]⟩]⟩]).segments =
      [⟨2000 / 1000, 1000 / 1000, pStrip "x".data⟩] := by
    rw [transcribe_segments]; rfl
  rw [hseg] at h
  have hle := h _ (List.mem_singleton_self _)
  norm_num at hle

/-- C1 amended: for every input sequence in which every selected alternative
carries word timestamps, if additionally the timestamps are well-formed — in
each selected alternative the first word's start time is at most the last
word's end time, and across contributing results in input order the first
words' start times are non-decreasing — then the segments list of
`transcribe` is ordered by non-decreasing `start` and every segment satisfies
`start ≤ end`. -/
theorem transcribe_segments_sorted_of_monotone_timestamps (rs : List RecoResult)
    (hw : ∀ a ∈ contribAlts rs, a.words ≠ [])
    (hse : ∀ a ∈ contribAlts rs, wStart a ≤ wEnd a)
    (hmono : (contribAlts rs).Pairwise (fun a b => wStart a ≤ wStart b)) :
    (transcribe rs).segments.Pairwise (fun s t => s.start ≤ t.start) ∧
      ∀ s ∈ (transcribe rs).segments, s.start ≤ s.«end» := by
  rw [transcribe_segments]
  constructor
  · rw [List.pairwise_map]
    refine hmono.imp_of_mem (fun {a b} ha hb hab => ?_)
    rw [mkSeg_of_words_ne_nil a (hw a ha), mkSeg_of_words_ne_nil b (hw b hb)]
    exact div_le_div_of_nonneg_right hab (by norm_num)
  · intro s hs
    rcases List.mem_map.mp hs with ⟨a, ha, rfl⟩
    rw [mkSeg_of_words_ne_nil a (hw a ha)]
    exact div_le_div_of_nonneg_right (hse a ha) (by norm_num)

/-- Witness for the amended C1 on a concrete two-result input with well-formed
timestamps. -/
theorem transcribe_segments_sorted_witness :
    (transcribe [⟨[⟨"a".data, [⟨0, 500⟩]⟩]⟩, ⟨[⟨"b".data, [⟨1000, 3000⟩]⟩]⟩]).segments.Pairwise
      (fun s t => s.start ≤ t.start) :=
  (transcribe_segments_sorted_of_monotone_timestamps
    [⟨[⟨"a".data, [⟨0, 500⟩]⟩]⟩, ⟨[⟨"b".data, [⟨1000, 3000⟩]⟩]⟩]
    (by decide) (by decide) (by decide)).1

/-- C3 counterexample: two recognition results, both with non-empty transcript
text and no word timestamps, make `transcribe` emit two sentinel segments, not
exactly one. -/
theorem two_timestampless_results_give_two_sentinels :
    (∀ a ∈ contribAlts [⟨[⟨"a".data, []⟩]⟩, ⟨[⟨"b".data, []⟩]⟩], a.words = []) ∧
      pStrip (textAcc [⟨[⟨"a".data, []⟩]⟩, ⟨[⟨"b".data, []⟩]⟩]) ≠ [] ∧
      (transcribe [⟨[⟨"a".data, []⟩]⟩, ⟨[⟨"b".data, []⟩]⟩]).segments.length ≠ 1 := by
  decide

/-- C3 amended: for every input sequence in which no selected alternative has
word timestamps and the accumulated transcript text is non-empty, `transcribe`
emits exactly one sentinel segment per result that has alternatives, the k-th
covering the k-th contributing result's trimmed transcript chunk; a single
segment covering the entire trimmed text arises exactly when there is a single
contributing result. -/
theorem transcribe_sentinel_per_contributing_result (rs : List RecoResult)
    (hw : ∀ a ∈ contribAlts rs, a.words = [])
    (hne : pStrip (textAcc rs) ≠ []) :
    (transcribe rs).segments =
      (contribAlts rs).map (fun a => ⟨0, 999999, pStrip a.transcript⟩) := by
  rw [transcribe_segments]
  exact List.map_congr_left (fun a ha => by simp [mkSeg, hw a ha])

/-- Witness for the amended C3: one contributing result, one sentinel segment
covering the whole trimmed text. -/
theorem transcribe_sentinel_per_contributing_result_witness :
    (transcribe [⟨[⟨" a ".data, []⟩]⟩]).segments =
      (contribAlts [⟨[⟨" a ".data, []⟩]⟩]).map (fun a => ⟨0, 999999, pStrip a.transcript⟩) :=
  transcribe_sentinel_per_contributing_result [⟨[⟨" a ".data, []⟩]⟩] (by decide) (by decide)

/-- C5 counterexample: for a result whose selected alternative lacks word
timestamps but has non-empty text, the emitted sentinel segment's end is the
literal numeric magic value `999999.0`, not an "unbounded" marker: the
segment `end` field carries the number 999999. -/
theorem sentinel_end_is_numeric_magic_value :
    ((transcribe [⟨[⟨"hi".data, []⟩]⟩]).segments.map (fun s => s.«end»)) = [999999] := by
  decide

/-- C5 amended: for every recognition result whose selected alternative lacks
word timestamps but has non-empty transcript text, `transcribe` emits a
sentinel segment starting at 0 whose end is the literal numeric sentinel
`999999.0`, covering the whole trimmed transcript chunk (stated for such a
result appended after an arbitrary prefix of results). -/
theorem transcribe_sentinel_numeric_end (pre : List RecoResult) (r : RecoResult)
    (alt : Alternative) (rest : List Alternative)
    (halts : r.alternatives = alt :: rest) (hw : alt.words = [])
    (hne : alt.transcript ≠ []) :
    (transcribe (pre ++ [r])).segments =
      (contribAlts pre).map mkSeg ++ [⟨0, 999999, pStrip alt.transcript⟩] := by
  rw [transcribe_segments]
  have hc : contribAlts (pre ++ [r]) = contribAlts pre ++ [alt] := by
    simp [contribAlts, List.filterMap_append, halts]
  rw [hc, List.map_append]
  simp [mkSeg, hw]

/-- Witness for the amended C5 on a concrete single-result input. -/
theorem transcribe_sentinel_numeric_end_witness :
    (transcribe ([] ++ [⟨[⟨"hi".data, []⟩]⟩])).segments =
      (contribAlts []).map mkSeg ++ [⟨0, 999999, pStrip "hi".data⟩] :=
  transcribe_sentinel_numeric_end [] ⟨[⟨"hi".data, []⟩]⟩ ⟨"hi".data, []⟩ []
    rfl rfl (by decide)

/-- C10: for every recognition result whose selected alternative has no word
timestamps and an empty transcript string, `transcribe` still emits a sentinel
segment with empty text (start 0, sentinel end 999999): the empty-text chunk
is not skipped, so a timestamp-less empty alternative adds a segment to the
output (stated for such a result appended after an arbitrary prefix). -/
theorem transcribe_emits_segment_for_empty_chunk (pre : List RecoResult) (r : RecoResult)
    (alt : Alternative) (rest : List Alternative)
    (halts : r.alternatives = alt :: rest) (hw : alt.words = [])
    (htx : alt.transcript = []) :
    (transcribe (pre ++ [r])).segments =
      (contribAlts pre).map mkSeg ++ [⟨0, 999999, []⟩] := by
  rw [transcribe_segments]
  have hc : contribAlts (pre ++ [r]) = contribAlts pre ++ [alt] := by
    simp [contribAlts, List.filterMap_append, halts]
  rw [hc, List.map_append]
  simp [mkSeg, hw, htx, pStrip]

/-- Witness for C10 on a concrete single-result input with an empty,
timestamp-less alternative. -/
theorem transcribe_emits_segment_for_empty_chunk_witness :
    (transcribe ([] ++ [⟨[⟨[], []⟩]⟩])).segments =
      (contribAlts []).map mkSeg ++ [⟨0, 999999, []⟩] :=
  transcribe_emits_segment_for_empty_chunk [] ⟨[⟨[], []⟩]⟩ ⟨[], []⟩ [] rfl rfl rfl

/-- C8: when the recognition response contains no results at all, `transcribe`
returns normally with `full_text = ""`, `segments = []`, duration `0` (and
language tag `"ko-KR"`), per the early return at lines 95–96. -/
theorem transcribe_empty_response :
    transcribe [] = ⟨[], [], "ko-KR".data, 0⟩ := rfl

end STTProcessor

namespace OCRProcessor

/-- The hallucination marker token `\begin{array}` (ocr_processor.py lines
128 and 132). -/
def marker : List Char := "\\begin{array}".data

/-- Python `line.count(marker)`, non-overlapping occurrences scanned left to
right: after a match the scan resumes past the matched token. The `skip`
argument counts characters of the current match still to be stepped over
(structural formulation of the resume-past-the-match scan). -/
def countMarkerAux (skip : Nat) : List Char → Nat
  | [] => 0
  | c :: rest =>
    match skip with
    | k + 1 => countMarkerAux k rest
    | 0 =>
      if marker.isPrefixOf (c :: rest) then 1 + countMarkerAux (marker.length - 1) rest
      else countMarkerAux 0 rest

/-- Python `line.count(marker)`. -/
def countMarker (s : List Char) : Nat := countMarkerAux 0 s

/-- Python `marker in line`: substring containment test. -/
def containsMarker : List Char → Bool
  | [] => false
  | c :: rest => marker.isPrefixOf (c :: rest) || containsMarker rest

/-- Per-line drop test of `_clean_hallucinations` (lines 126–136): drop when
the marker occurs more than 3 times in the line, or the line is longer than
500 characters and contains the marker. -/
def dropLine (line : List Char) : Bool :=
  if 3 < countMarker line then true
  else if 500 < line.length ∧ containsMarker line = true then true
  else false

/-- Python `text.split` at newline: split at every newline character; the
empty string splits to one empty line. -/
def splitNl : List Char → List (List Char)
  | [] => [[]]
  | c :: rest =>
    if c = '\n' then [] :: splitNl rest
    else
      match splitNl rest with
      | [] => [[c]]
      | l :: ls => (c :: l) :: ls

/-- Python newline `join`. -/
def joinNl : List (List Char) → List Char
  | [] => []
  | [l] => l
  | l :: l2 :: ls => l ++ '\n' :: joinNl (l2 :: ls)

/-- `OCRProcessor._clean_hallucinations` (lines 114–138): split into lines,
keep the lines the drop test rejects, rejoin with newlines. -/
def _clean_hallucinations (text : List Char) : List Char :=
  joinNl ((splitNl text).filter (fun line => ! dropLine line))

theorem splitNl_ne_nil (s : List Char) : splitNl s ≠ [] := by
  induction s with
  | nil => simp [splitNl]
  | cons c rest ih =>
    by_cases h : c = '\n'
    · simp [splitNl, h]
    · cases hs : splitNl rest with
      | nil => simp [splitNl, h, hs]
      | cons l ls => simp [splitNl, h, hs]

theorem no_newline_of_mem_splitNl (s : List Char) :
    ∀ m ∈ splitNl s, '\n' ∉ m := by
  induction s with
  | nil => intro m hm; simp [splitNl] at hm; simp [hm]
  | cons c rest ih =>
    intro m hm
    by_cases h : c = '\n'
    · rw [splitNl, if_pos h] at hm
      rcases List.mem_cons.mp hm with rfl | hm
      · simp
      · exact ih m hm
    · rw [splitNl, if_neg h] at hm
      cases hs : splitNl rest with
      | nil => exact absurd hs (splitNl_ne_nil rest)
      | cons l ls =>
        rw [hs] at hm
        rcases List.mem_cons.mp hm with rfl | hm
        · intro hmem
          rcases List.mem_cons.mp hmem with rfl | hmem
          · exact h rfl
          · exact ih l (hs ▸ List.mem_cons_self l ls) hmem
        · exact ih m (hs ▸ List.mem_cons_of_mem l hm)

theorem splitNl_of_no_newline (l : List Char) (h : '\n' ∉ l) : splitNl l = [l] := by
  induction l with
  | nil => simp [splitNl]
  | cons c rest ih =>
    have hc : ¬ c = '\n' := fun hc => h (hc ▸ List.mem_cons_self c rest)
    have hrest : splitNl rest = [rest] := ih (fun hm => h (List.mem_cons_of_mem c hm))
    simp [splitNl, hc, hrest]

theorem splitNl_append_newline (l t : List Char) (h : '\n' ∉ l) :
    splitNl (l ++ '\n' :: t) = l :: splitNl t := by
  induction l with
  | nil => simp [splitNl]
  | cons c rest ih =>
    have hc : ¬ c = '\n' := fun hc => h (hc ▸ List.mem_cons_self c rest)
    have hrest := ih (fun hm => h (List.mem_cons_of_mem c hm))
    simp [splitNl, hc, hrest]

theorem splitNl_joinNl (ls : List (List Char)) (hne : ls ≠ [])
    (h : ∀ l ∈ ls, '\n' ∉ l) : splitNl (joinNl ls) = ls := by
  induction ls with
  | nil => exact absurd rfl hne
  | cons l ls ih =>
    cases ls with
    | nil => exact splitNl_of_no_newline l (h l (List.mem_cons_self l []))
    | cons l2 ls2 =>
      rw [joinNl, splitNl_append_newline l _ (h l (List.mem_cons_self l _)),
        ih (by simp) (fun m hm => h m (List.mem_cons_of_mem l hm))]

theorem containsMarker_iff_one_le_countMarker (s : List Char) :
    containsMarker s = true ↔ 1 ≤ countMarker s := by
  induction s with
  | nil => simp [containsMarker, countMarker, countMarkerAux]
  | cons c rest ih =>
    by_cases h : marker.isPrefixOf (c :: rest)
    · simp [containsMarker, countMarker, countMarkerAux, h]
    · simpa [containsMarker, countMarker, countMarkerAux, h] using ih

theorem dropLine_iff (line : List Char) :
    dropLine line = true ↔
      (3 < countMarker line ∨ (500 < line.length ∧ 1 ≤ countMarker line)) := by
  rw [dropLine]
  split_ifs with h1 h2
  · simp [h1]
  · simp only [true_iff]
    exact Or.inr ⟨h2.1, (containsMarker_iff_one_le_countMarker line).mp h2.2⟩
  · simp only [Bool.false_eq_true, false_iff]
    push_neg at h2 ⊢
    refine ⟨not_lt.mp h1, fun hlen => ?_⟩
    by_contra hcnt
    push_neg at hcnt
    exact (h2 hlen) ((containsMarker_iff_one_le_countMarker line).mpr hcnt)

set_option maxRecDepth 40000 in
/-- C6: `_clean_hallucinations` drops a line exactly when the marker token
occurs strictly more than 3 times in it, or the line is strictly longer than
500 characters and contains the marker at least once; in particular a line
made of exactly 4 markers is dropped, one of exactly 3 markers is kept, a
600-character line containing the marker is dropped, and a 600-character line
without it is kept. -/
theorem clean_hallucinations_drop_characterization :
    (∀ line : List Char, dropLine line = true ↔
        (3 < countMarker line ∨ (500 < line.length ∧ 1 ≤ countMarker line)))
      ∧ dropLine ((List.replicate 4 marker).flatten) = true
      ∧ dropLine ((List.replicate 3 marker).flatten) = false
      ∧ ((marker ++ List.replicate 587 'a').length = 600
          ∧ dropLine (marker ++ List.replicate 587 'a') = true)
      ∧ ((List.replicate 600 'a' : List Char).length = 600
          ∧ dropLine (List.replicate 600 'a') = false) :=
  ⟨dropLine_iff, by decide, by decide, by decide, by decide⟩

/-- C7: `_clean_hallucinations` is idempotent — filtering its own output
changes nothing further. -/
theorem clean_hallucinations_idempotent (s : List Char) :
    _clean_hallucinations (_clean_hallucinations s) = _clean_hallucinations s := by
  rw [_clean_hallucinations, _clean_hallucinations]
  cases hks : (splitNl s).filter (fun line => ! dropLine line) with
  | nil =>
    rw [joinNl]
    rfl
  | cons k ks =>
    rw [splitNl_joinNl (k :: ks) (by simp) (fun m hm => by
      have hmem : m ∈ splitNl s := List.mem_of_mem_filter (hks ▸ hm)
      exact no_newline_of_mem_splitNl s m hmem)]
    rw [← hks, List.filter_filter]
    simp

/-- Split at the first occurrence of the block delimiter pair `$$`: the text
before it and the text after it. -/
def splitAtDD : List Char → Option (List Char × List Char)
  | '$' :: '$' :: rest => some ([], rest)
  | c :: rest => (splitAtDD rest).map (fun p => (c :: p.1, p.2))
  | [] => none

/-- `re.findall` of the block pattern (two dollars, a minimal DOTALL capture,
two dollars) over the text: find an opening pair, capture up to the next pair,
resume after it. `fuel` bounds the number of matches; each match consumes at
least four characters, so `s.length` always suffices. -/
def blockFindAux (fuel : Nat) (s : List Char) : List (List Char) :=
  match fuel with
  | 0 => []
  | fuel + 1 =>
    match splitAtDD s with
    | none => []
    | some (_, rest) =>
      match splitAtDD rest with
      | none => []
      | some (cap, rest2) => cap :: blockFindAux fuel rest2

/-- Block-expression pass of `_extract_latex` (ocr_processor.py lines
151–152). -/
def blockFindall (s : List Char) : List (List Char) := blockFindAux s.length s

/-- Search for the closing inline delimiter: the minimal position holding a
dollar neither preceded nor followed by another dollar; the capture skipped
over may not contain a newline (the inline pattern is compiled without
DOTALL). `prev` is the character just before the current position. -/
def findClose (prev : Char) : List Char → Option (List Char × List Char)
  | [] => none
  | c :: rest =>
    if c = '$' ∧ prev ≠ '$' ∧ rest.head? ≠ some '$' then some ([], rest)
    else if c = '\n' then none
    else (findClose c rest).map (fun p => (c :: p.1, p.2))

/-- `re.findall` scan of the inline pattern (a dollar with negative
lookarounds, a minimal capture, a closing dollar with negative lookarounds):
at each position a non-adjacent dollar opens a match, the minimal valid
closing dollar ends it and scanning resumes after it; otherwise the scan
advances one character. `prev` is the character before the current position
(`none` at the start of the text); `fuel` bounds the scan steps, and
`s.length` always suffices since every step consumes at least one
character. -/
def inlineFindAux (fuel : Nat) (prev : Option Char) (s : List Char) : List (List Char) :=
  match fuel with
  | 0 => []
  | fuel + 1 =>
    match s with
    | [] => []
    | c :: rest =>
      if c = '$' ∧ prev ≠ some '$' ∧ rest.head? ≠ some '$' then
        match findClose '$' rest with
        | some (cap, rest2) => cap :: inlineFindAux fuel (some '$') rest2
        | none => inlineFindAux fuel (some c) rest
      else inlineFindAux fuel (some c) rest

/-- Inline-expression pass of `_extract_latex` (lines 154–156). -/
def inlineFindall (s : List Char) : List (List Char) := inlineFindAux s.length none s

/-- `OCRProcessor._extract_latex` (lines 140–158): all block matches first,
then all inline matches, each in appearance order. -/
def _extract_latex (markdown_text : List Char) : List (List Char) :=
  blockFindall markdown_text ++ inlineFindall markdown_text

/-- C4 counterexample: on the markdown input of the claim the inline capture
group matches exactly the text between the single dollars, which is `"z"`
(no surrounding spaces), so the inline pass yields `["z"]` — not `[" z "]` —
and the combined result is `[" x+y ", "z"]`, not `[" x+y ", " z "]`. -/
theorem extract_latex_example_refutes_claimed_inline :
    inlineFindall "Title\n$$ x+y $$\ninline $z$ text".data ≠ [" z ".data] ∧
      _extract_latex "Title\n$$ x+y $$\ninline $z$ text".data ≠
        [" x+y ".data, " z ".data] := by decide

/-- C4 amended: on the markdown input `"Title\n$$ x+y $$\ninline $z$ text"`
the block pass yields exactly `[" x+y "]`, the inline pass yields exactly
`["z"]`, and the combined list is `[" x+y ", "z"]`. -/
theorem extract_latex_example :
    blockFindall "Title\n$$ x+y $$\ninline $z$ text".data = [" x+y ".data] ∧
      inlineFindall "Title\n$$ x+y $$\ninline $z$ text".data = ["z".data] ∧
      _extract_latex "Title\n$$ x+y $$\ninline $z$ text".data =
        [" x+y ".data, "z".data] := by decide

/-- Modelled from the spec: `DetectedSlide { slide_number: integer }` — the
scene detector's slide record (`scene_detector.py` is not among the verified
sources; only its `slide_number` field is consumed here). -/
structure DetectedSlide where
  slide_number : Int
  deriving DecidableEq

/-- `OCRResult` dataclass (ocr_processor.py lines 10–17). -/
structure OCRResult where
  slide_number : Int
  raw_text : List Char
  structured_markdown : List Char
  latex_expressions : List (List Char)
  deriving DecidableEq

/-- `OCRProcessor.process_slide` (lines 58–91); the vision-LLM call is the
external collaborator `analyze`, mapping image bytes (any type `β`) to the
raw response text. -/
def process_slide {β : Type} (analyze : β → List Char) (slide : DetectedSlide)
    (image_bytes : β) : OCRResult :=
  let response := analyze image_bytes
  let cleaned := _clean_hallucinations response
  ⟨slide.slide_number, response, cleaned, _extract_latex cleaned⟩

/-- `OCRProcessor.process_slides` (lines 93–112): `zip` pairs the two input
lists positionally and stops at the end of the shorter one. -/
def process_slides {β : Type} (analyze : β → List Char) (slides : List DetectedSlide)
    (image_bytes_list : List β) : List OCRResult :=
  (slides.zip image_bytes_list).map (fun p => process_slide analyze p.1 p.2)

/-- C9: for every call where the slides list and the image-bytes list have
different lengths, `process_slides` returns exactly `min` of the two lengths
many results, pairing the lists positionally in input order; the unmatched
trailing elements of the longer list are silently ignored. -/
theorem process_slides_pairs_positionally_and_truncates {β : Type}
    (analyze : β → List Char) (slides : List DetectedSlide) (imgs : List β)
    (h : slides.length ≠ imgs.length) :
    (process_slides analyze slides imgs).length = min slides.length imgs.length ∧
      ∀ k (h1 : k < slides.length) (h2 : k < imgs.length),
        (process_slides analyze slides imgs)[k]? =
          some (process_slide analyze (slides.get ⟨k, h1⟩) (imgs.get ⟨k, h2⟩)) := by
  constructor
  · simp [process_slides, List.length_zip]
  · intro k h1 h2
    have hz : (slides.zip imgs)[k]? = some (slides.get ⟨k, h1⟩, imgs.get ⟨k, h2⟩) := by
      rw [List.getElem?_zip_eq_some]
      constructor
      · simp [List.getElem?_eq_getElem h1]
      · simp [List.getElem?_eq_getElem h2]
    simp [process_slides, hz]

/-- Witness for C9: two slides against one image give exactly one result,
pairing the first slide with the image. -/
theorem process_slides_pairs_positionally_witness :
    (process_slides (fun i => i) [⟨1⟩, ⟨2⟩] ["md".data]).length = min 2 1 ∧
      (process_slides (fun i => i) [⟨1⟩, ⟨2⟩] ["md".data])[0]? =
        some (process_slide (fun i => i) ⟨1⟩ "md".data) :=
  ⟨(process_slides_pairs_positionally_and_truncates (fun i => i) [⟨1⟩, ⟨2⟩]
      ["md".data] (by decide)).1,
    (process_slides_pairs_positionally_and_truncates (fun i => i) [⟨1⟩, ⟨2⟩]
      ["md".data] (by decide)).2 0 (by decide) (by decide)⟩

end OCRProcessor
